import Mathlib

/-!
Verification of rnn2d `math_gpu.h`: row-major GEMM dispatch and strided copy.

`math_gpu.h` declares two operations on device buffers.

* `gemm_gpu<T>` (three specialisations: `float`, `double`, `__half`) forwards a
  row-major multiply request to the column-major cuBLAS entry point of the same
  precision, swapping the operands instead of transposing data.
* `copym_gpu<T>` copies an `m × n` block between two strided buffers.  Only its
  declaration is in the header.

Embedding.

* A pointer is a buffer name of an arbitrary type `P`; device memory maps every
  name to its elements, `P → Nat → T`.  Distinct names are distinct buffers.
* The C `int` dimensions and leading dimensions are `Nat`: the header restricts
  them to counts, and the wrappers do no arithmetic on them.
* Scalars live in any type with `0`, `+` and `*`; theorems about values ask for
  a commutative semiring (exact arithmetic).
* The cuBLAS entry points are fields of a `Cublas` record, so that the
  wrappers can be run against any behaviour of the library, against a recording
  library, and against the column-major reference GEMM `gemmColMajor`.
-/

namespace Rnn2d

/-! ## Data model -/

/-- The operation flag `cublasOperation_t` ('N', 'T', 'C' in the header). -/
inductive cublasOperation_t
  | CUBLAS_OP_N
  | CUBLAS_OP_T
  | CUBLAS_OP_C
  deriving DecidableEq, Repr

/-- Modelled from the spec: the type `cublasStatus_t` comes from `cublas_v2.h`,
which is not among the sources; its values are the result domain the
specification lists in section 6. -/
inductive cublasStatus_t
  | Success
  | InvalidValue
  | ExecutionFailed
  | NotSupported
  | MappingError
  | AllocationFailed
  | ArchitectureMismatch
  | InternalError
  deriving DecidableEq, Repr

/-- The argument tuple of a `cublas<t>gemm` entry point, in the order of its
parameters: `(handle, transa, transb, m, n, k, alpha, A, lda, B, ldb, beta, C, ldc)`. -/
structure GemmArgs (H P T : Type) where
  handle : H
  transa : cublasOperation_t
  transb : cublasOperation_t
  m : Nat
  n : Nat
  k : Nat
  alpha : T
  A : P
  lda : Nat
  B : P
  ldb : Nat
  beta : T
  C : P
  ldc : Nat

/-- The three cuBLAS entry points `math_gpu.h` calls.  `W` is the state the
library acts on, `S` its status type; `F`, `D`, `Hf` are the element types of
the three precisions. -/
structure Cublas (H P F D Hf S W : Type) where
  cublasSgemm : GemmArgs H P F → W → S × W
  cublasDgemm : GemmArgs H P D → W → S × W
  cublasHgemm : GemmArgs H P Hf → W → S × W

/-! ## `gemm_gpu` (math_gpu.h, lines 37-62) -/

/-- Specialisation `gemm_gpu<float>`:
`return cublasSgemm(handle, opB, opA, n, m, k, &alpha, B, ldb, A, lda, &beta, C, ldc);` -/
def gemm_gpu_float {H P F D Hf S W : Type} (lib : Cublas H P F D Hf S W)
    (handle : H) (opA opB : cublasOperation_t) (m n k : Nat) (alpha : F)
    (A : P) (lda : Nat) (B : P) (ldb : Nat) (beta : F) (C : P) (ldc : Nat) :
    W → S × W :=
  lib.cublasSgemm ⟨handle, opB, opA, n, m, k, alpha, B, ldb, A, lda, beta, C, ldc⟩

/-- Specialisation `gemm_gpu<double>`:
`return cublasDgemm(handle, opB, opA, n, m, k, &alpha, B, ldb, A, lda, &beta, C, ldc);` -/
def gemm_gpu_double {H P F D Hf S W : Type} (lib : Cublas H P F D Hf S W)
    (handle : H) (opA opB : cublasOperation_t) (m n k : Nat) (alpha : D)
    (A : P) (lda : Nat) (B : P) (ldb : Nat) (beta : D) (C : P) (ldc : Nat) :
    W → S × W :=
  lib.cublasDgemm ⟨handle, opB, opA, n, m, k, alpha, B, ldb, A, lda, beta, C, ldc⟩

/-- Specialisation `gemm_gpu<__half>`:
`return cublasHgemm(handle, opB, opA, n, m, k, &alpha, B, ldb, A, lda, &beta, C, ldc);` -/
def gemm_gpu_half {H P F D Hf S W : Type} (lib : Cublas H P F D Hf S W)
    (handle : H) (opA opB : cublasOperation_t) (m n k : Nat) (alpha : Hf)
    (A : P) (lda : Nat) (B : P) (ldb : Nat) (beta : Hf) (C : P) (ldc : Nat) :
    W → S × W :=
  lib.cublasHgemm ⟨handle, opB, opA, n, m, k, alpha, B, ldb, A, lda, beta, C, ldc⟩

/-- The remapping the three specialisations apply to their arguments, as a
function on argument tuples: operands, their flags and leading dimensions, and
`m`/`n` are exchanged. -/
def remap {H P T : Type} (g : GemmArgs H P T) : GemmArgs H P T :=
  ⟨g.handle, g.transb, g.transa, g.n, g.m, g.k, g.alpha, g.B, g.ldb, g.A, g.lda,
    g.beta, g.C, g.ldc⟩

/-! ## Recording library: which entry point is called, and with what -/

/-- One call to a cuBLAS entry point. -/
inductive KernelCall (H P F D Hf : Type)
  | sgemm (g : GemmArgs H P F)
  | dgemm (g : GemmArgs H P D)
  | hgemm (g : GemmArgs H P Hf)

/-- The library `lib`, with every call appended to a call list carried next to
the state. -/
def Cublas.recording {H P F D Hf S W : Type} (lib : Cublas H P F D Hf S W) :
    Cublas H P F D Hf S (W × List (KernelCall H P F D Hf)) where
  cublasSgemm g w := ((lib.cublasSgemm g w.1).1,
    ((lib.cublasSgemm g w.1).2, w.2 ++ [KernelCall.sgemm g]))
  cublasDgemm g w := ((lib.cublasDgemm g w.1).1,
    ((lib.cublasDgemm g w.1).2, w.2 ++ [KernelCall.dgemm g]))
  cublasHgemm g w := ((lib.cublasHgemm g w.1).1,
    ((lib.cublasHgemm g w.1).2, w.2 ++ [KernelCall.hgemm g]))

/-! ## Device memory with an access log -/

/-- One element access: a load or a store of element `off` of buffer `ptr`. -/
structure Access (P : Type) where
  isStore : Bool
  ptr : P
  off : Nat
  deriving DecidableEq

/-- Device state: the contents of every buffer, and the accesses made so far
(newest first). -/
structure Device (P T : Type) where
  mem : P → Nat → T
  log : List (Access P)

/-- Load element `off` of buffer `p`. -/
def Device.load {P T : Type} (d : Device P T) (p : P) (off : Nat) : T × Device P T :=
  (d.mem p off, { d with log := ⟨false, p, off⟩ :: d.log })

/-- Store `v` into element `off` of buffer `p`. -/
def Device.store {P T : Type} [DecidableEq P] (d : Device P T) (p : P) (off : Nat)
    (v : T) : Device P T :=
  { mem := fun q o => if q = p ∧ o = off then v else d.mem q o
    log := ⟨true, p, off⟩ :: d.log }

/-! ## Storage layouts -/

/-- Offset of element `(i, j)` of a row-major matrix with leading dimension `ld`
(the header: "number of columns in a row"). -/
def rowMajorIdx (ld i j : Nat) : Nat := i * ld + j

/-- Offset of element `(i, j)` of a column-major matrix with leading dimension
`ld` (the cuBLAS convention). -/
def colMajorIdx (ld i j : Nat) : Nat := i + j * ld

/-- The row-major matrix stored in `buf` with leading dimension `ld`. -/
def rowMajorView {T : Type} (buf : Nat → T) (ld : Nat) (i j : Nat) : T :=
  buf (rowMajorIdx ld i j)

/-- The column-major matrix stored in `buf` with leading dimension `ld`. -/
def colMajorView {T : Type} (buf : Nat → T) (ld : Nat) (i j : Nat) : T :=
  buf (colMajorIdx ld i j)

/-- Offset of element `(r, c)` of `op(X)` for a column-major `X`: `X[r, c]`
without transposition, `X[c, r]` with it.  On real data the conjugate
transpose is the transpose. -/
def opIdx (op : cublasOperation_t) (ld r c : Nat) : Nat :=
  match op with
  | cublasOperation_t.CUBLAS_OP_N => colMajorIdx ld r c
  | _ => colMajorIdx ld c r

/-! ## The column-major reference GEMM -/

/-- Inner loop: `sum over l < k of op(A)[i, l] * op(B)[l, j]`, loading both
factors from device memory. -/
def gemmDot {H P T : Type} [Zero T] [Add T] [Mul T] (g : GemmArgs H P T) (i j : Nat) :
    Nat → Device P T → T × Device P T
  | 0, d => (0, d)
  | l + 1, d =>
    let r := gemmDot g i j l d
    let a := r.2.load g.A (opIdx g.transa g.lda i l)
    let b := a.2.load g.B (opIdx g.transb g.ldb l j)
    (r.1 + a.1 * b.1, b.2)

/-- One output element: `C[i, j] := alpha * dot + beta * C[i, j]`. -/
def gemmCell {H P T : Type} [Zero T] [Add T] [Mul T] [DecidableEq P]
    (g : GemmArgs H P T) (i j : Nat) (d : Device P T) : Device P T :=
  let s := gemmDot g i j g.k d
  let c := s.2.load g.C (colMajorIdx g.ldc i j)
  c.2.store g.C (colMajorIdx g.ldc i j) (g.alpha * s.1 + g.beta * c.1)

/-- Rows `0 .. i-1` of output column `j`. -/
def gemmRows {H P T : Type} [Zero T] [Add T] [Mul T] [DecidableEq P]
    (g : GemmArgs H P T) (j : Nat) : Nat → Device P T → Device P T
  | 0, d => d
  | i + 1, d => gemmCell g i j (gemmRows g j i d)

/-- Output columns `0 .. j-1`, each over all `g.m` rows. -/
def gemmCols {H P T : Type} [Zero T] [Add T] [Mul T] [DecidableEq P]
    (g : GemmArgs H P T) : Nat → Device P T → Device P T
  | 0, d => d
  | j + 1, d => gemmRows g j g.m (gemmCols g j d)

/-- The column-major reference GEMM: `C := alpha * op(A) * op(B) + beta * C`
with `op(A)` of shape `m × k`, `op(B)` of shape `k × n` and `C` of shape
`m × n`, all column-major. -/
def gemmColMajor {H P T : Type} [Zero T] [Add T] [Mul T] [DecidableEq P]
    (g : GemmArgs H P T) (d : Device P T) : Device P T :=
  gemmCols g g.n d

/-- The cuBLAS library with every entry point behaving as the column-major
reference GEMM over the scalars `T` and reporting success. -/
def refCublas (H P T : Type) [Zero T] [Add T] [Mul T] [DecidableEq P] :
    Cublas H P T T T cublasStatus_t (Device P T) where
  cublasSgemm g d := (cublasStatus_t.Success, gemmColMajor g d)
  cublasDgemm g d := (cublasStatus_t.Success, gemmColMajor g d)
  cublasHgemm g d := (cublasStatus_t.Success, gemmColMajor g d)

/-- The value the inner loop computes, as a sum over the contraction index:
`sum over l < k of op(A)[i, l] * op(B)[l, j]` for column-major buffers `a`, `b`. -/
def colMajorDot {T : Type} [CommSemiring T] (ta tb : cublasOperation_t)
    (a : Nat → T) (lda : Nat) (b : Nat → T) (ldb : Nat) (i j k : Nat) : T :=
  ∑ l ∈ Finset.range k, a (opIdx ta lda i l) * b (opIdx tb ldb l j)

/-- The accesses the reference GEMM makes for output element `(i, j)`: loads of
`op(A)[i, l]` and `op(B)[l, j]` for `l < k`, and a load and a store of `C[i, j]`. -/
def cellAccess {H P T : Type} (g : GemmArgs H P T) (i j : Nat) (a : Access P) : Prop :=
  (∃ l, l < g.k ∧ (a = ⟨false, g.A, opIdx g.transa g.lda i l⟩
      ∨ a = ⟨false, g.B, opIdx g.transb g.ldb l j⟩))
  ∨ a = ⟨false, g.C, colMajorIdx g.ldc i j⟩
  ∨ a = ⟨true, g.C, colMajorIdx g.ldc i j⟩

/-! ## `copym_gpu` (math_gpu.h, lines 27-30 and 64-74) -/

/-- Modelled from the spec: columns `0 .. j-1` of row `i` of the strided copy,
`dst[i][j] := src[i][j]`, each side with its own leading dimension. -/
def copymRow {P T : Type} [DecidableEq P] (A : P) (lda : Nat) (B : P) (ldb : Nat)
    (i : Nat) : Nat → Device P T → Device P T
  | 0, d => d
  | j + 1, d =>
    let r := (copymRow A lda B ldb i j d).load A (rowMajorIdx lda i j)
    r.2.store B (rowMajorIdx ldb i j) r.1

/-- Modelled from the spec: rows `0 .. i-1` of the strided copy. -/
def copymRows {P T : Type} [DecidableEq P] (n : Nat) (A : P) (lda : Nat) (B : P)
    (ldb : Nat) : Nat → Device P T → Device P T
  | 0, d => d
  | i + 1, d => copymRow A lda B ldb i n (copymRows n A lda B ldb i d)

/-- Modelled from the spec: `copym_gpu<T>(m, n, A, lda, B, ldb, stream)` is only
declared in `math_gpu.h`; its definition is missing from the sources.  Following
section 4.2 of the specification it copies every logical element `src[i][j]` to
`dst[i][j]` for `i < m`, `j < n`, the source read with `lda` and the destination
written with `ldb`.  The copy is taken at its completion on the stream. -/
def copym_gpu {P T Q : Type} [DecidableEq P] (m n : Nat) (A : P) (lda : Nat) (B : P)
    (ldb : Nat) (_stream : Q) (d : Device P T) : Device P T :=
  copymRows n A lda B ldb m d

/-! ## Concrete scenario of the specification -/

/-- Buffers of the `2 × 3` scenario: buffer `0` is `A`, buffer `1` is `B`, any
other buffer is all zeros. -/
def scenarioMem (p off : Nat) : Int :=
  match p with
  | 0 => [1, 2, 3, 4].getD off 0
  | 1 => [5, 6, 7, 8, 9, 10].getD off 0
  | _ => 0

/-- Device state of the `2 × 3` scenario, before the call. -/
def scenarioDev : Device Nat Int := ⟨scenarioMem, []⟩

/-- Buffers of the strided-copy scenario: buffer `0` is a `2 × 4` source,
every other buffer holds `-1` everywhere. -/
def copyMem (p off : Nat) : Int :=
  match p with
  | 0 => [1, 2, 3, 4, 5, 6, 7, 8].getD off 0
  | _ => -1

/-- Device state of the strided-copy scenario, before the copy. -/
def copyDev : Device Nat Int := ⟨copyMem, []⟩

/-- A library whose entry points fail, each with its own status, and leave the
state alone. -/
def failingCublas : Cublas Unit Nat Int Int Int cublasStatus_t Unit where
  cublasSgemm _ w := (cublasStatus_t.ExecutionFailed, w)
  cublasDgemm _ w := (cublasStatus_t.InvalidValue, w)
  cublasHgemm _ w := (cublasStatus_t.NotSupported, w)

/-! ## Dispatch: the call that is issued and the status that comes back -/

/-- C2: each specialisation of `gemm_gpu` is one call to the entry point of its
precision (`cublasSgemm`, `cublasDgemm`, `cublasHgemm`) with the argument tuple
`(handle, opB, opA, n, m, k, alpha, B, ldb, A, lda, beta, C, ldc)`: whatever the
library does and whatever the state `w` holds (the buffer contents included),
the wrapper is that entry point at that tuple, and run against the recording
library it appends exactly that one call to the call list. -/
theorem gemm_gpu_issues_one_remapped_call {H P F D Hf S W : Type}
    (lib : Cublas H P F D Hf S W) (w : W) (calls : List (KernelCall H P F D Hf))
    (handle : H) (opA opB : cublasOperation_t) (m n k : Nat)
    (alphaF betaF : F) (alphaD betaD : D) (alphaH betaH : Hf)
    (A : P) (lda : Nat) (B : P) (ldb : Nat) (C : P) (ldc : Nat) :
    (gemm_gpu_float lib handle opA opB m n k alphaF A lda B ldb betaF C ldc
        = lib.cublasSgemm ⟨handle, opB, opA, n, m, k, alphaF, B, ldb, A, lda, betaF, C, ldc⟩
      ∧ (gemm_gpu_float lib.recording handle opA opB m n k alphaF A lda B ldb betaF C ldc
          (w, calls)).2.2
        = calls ++ [KernelCall.sgemm
            ⟨handle, opB, opA, n, m, k, alphaF, B, ldb, A, lda, betaF, C, ldc⟩])
    ∧ (gemm_gpu_double lib handle opA opB m n k alphaD A lda B ldb betaD C ldc
        = lib.cublasDgemm ⟨handle, opB, opA, n, m, k, alphaD, B, ldb, A, lda, betaD, C, ldc⟩
      ∧ (gemm_gpu_double lib.recording handle opA opB m n k alphaD A lda B ldb betaD C ldc
          (w, calls)).2.2
        = calls ++ [KernelCall.dgemm
            ⟨handle, opB, opA, n, m, k, alphaD, B, ldb, A, lda, betaD, C, ldc⟩])
    ∧ (gemm_gpu_half lib handle opA opB m n k alphaH A lda B ldb betaH C ldc
        = lib.cublasHgemm ⟨handle, opB, opA, n, m, k, alphaH, B, ldb, A, lda, betaH, C, ldc⟩
      ∧ (gemm_gpu_half lib.recording handle opA opB m n k alphaH A lda B ldb betaH C ldc
          (w, calls)).2.2
        = calls ++ [KernelCall.hgemm
            ⟨handle, opB, opA, n, m, k, alphaH, B, ldb, A, lda, betaH, C, ldc⟩]) :=
  ⟨⟨rfl, rfl⟩, ⟨rfl, rfl⟩, ⟨rfl, rfl⟩⟩

/-- C3: if the kernel call issued by `gemm_gpu` reports status `s` (any value of
the status type, success or failure), then `gemm_gpu` returns `s`, and the state
it leaves is the one the kernel left; run against the recording library from an
empty call list, the wrapper returns the same `s` and the list holds one call.
Stated for the three precisions, each with its own kernel and status. -/
theorem gemm_gpu_forwards_status {H P F D Hf S W : Type}
    (lib : Cublas H P F D Hf S W) (w : W)
    (handle : H) (opA opB : cublasOperation_t) (m n k : Nat)
    (alphaF betaF : F) (alphaD betaD : D) (alphaH betaH : Hf)
    (A : P) (lda : Nat) (B : P) (ldb : Nat) (C : P) (ldc : Nat) (sF sD sH : S)
    (hF : (lib.cublasSgemm
      ⟨handle, opB, opA, n, m, k, alphaF, B, ldb, A, lda, betaF, C, ldc⟩ w).1 = sF)
    (hD : (lib.cublasDgemm
      ⟨handle, opB, opA, n, m, k, alphaD, B, ldb, A, lda, betaD, C, ldc⟩ w).1 = sD)
    (hH : (lib.cublasHgemm
      ⟨handle, opB, opA, n, m, k, alphaH, B, ldb, A, lda, betaH, C, ldc⟩ w).1 = sH) :
    ((gemm_gpu_float lib handle opA opB m n k alphaF A lda B ldb betaF C ldc w).1 = sF
      ∧ (gemm_gpu_float lib handle opA opB m n k alphaF A lda B ldb betaF C ldc w).2
        = (lib.cublasSgemm
            ⟨handle, opB, opA, n, m, k, alphaF, B, ldb, A, lda, betaF, C, ldc⟩ w).2
      ∧ (gemm_gpu_float lib.recording handle opA opB m n k alphaF A lda B ldb betaF C ldc
          (w, [])).1 = sF
      ∧ (gemm_gpu_float lib.recording handle opA opB m n k alphaF A lda B ldb betaF C ldc
          (w, [])).2.2.length = 1)
    ∧ ((gemm_gpu_double lib handle opA opB m n k alphaD A lda B ldb betaD C ldc w).1 = sD
      ∧ (gemm_gpu_double lib handle opA opB m n k alphaD A lda B ldb betaD C ldc w).2
        = (lib.cublasDgemm
            ⟨handle, opB, opA, n, m, k, alphaD, B, ldb, A, lda, betaD, C, ldc⟩ w).2
      ∧ (gemm_gpu_double lib.recording handle opA opB m n k alphaD A lda B ldb betaD C ldc
          (w, [])).1 = sD
      ∧ (gemm_gpu_double lib.recording handle opA opB m n k alphaD A lda B ldb betaD C ldc
          (w, [])).2.2.length = 1)
    ∧ ((gemm_gpu_half lib handle opA opB m n k alphaH A lda B ldb betaH C ldc w).1 = sH
      ∧ (gemm_gpu_half lib handle opA opB m n k alphaH A lda B ldb betaH C ldc w).2
        = (lib.cublasHgemm
            ⟨handle, opB, opA, n, m, k, alphaH, B, ldb, A, lda, betaH, C, ldc⟩ w).2
      ∧ (gemm_gpu_half lib.recording handle opA opB m n k alphaH A lda B ldb betaH C ldc
          (w, [])).1 = sH
      ∧ (gemm_gpu_half lib.recording handle opA opB m n k alphaH A lda B ldb betaH C ldc
          (w, [])).2.2.length = 1) :=
  ⟨⟨hF, rfl, hF, rfl⟩, ⟨hD, rfl, hD, rfl⟩, ⟨hH, rfl, hH, rfl⟩⟩

/-- Witness of C3: a library whose three kernels fail with `ExecutionFailed`,
`InvalidValue` and `NotSupported`; the wrappers return exactly these. -/
theorem gemm_gpu_forwards_status_witness :
    (gemm_gpu_float failingCublas () cublasOperation_t.CUBLAS_OP_N
        cublasOperation_t.CUBLAS_OP_T 2 3 4 1 0 4 1 4 0 2 3 ()).1
      = cublasStatus_t.ExecutionFailed
    ∧ (gemm_gpu_double failingCublas () cublasOperation_t.CUBLAS_OP_N
        cublasOperation_t.CUBLAS_OP_T 2 3 4 1 0 4 1 4 0 2 3 ()).1
      = cublasStatus_t.InvalidValue
    ∧ (gemm_gpu_half failingCublas () cublasOperation_t.CUBLAS_OP_N
        cublasOperation_t.CUBLAS_OP_T 2 3 4 1 0 4 1 4 0 2 3 ()).1
      = cublasStatus_t.NotSupported :=
  have h := gemm_gpu_forwards_status failingCublas () () cublasOperation_t.CUBLAS_OP_N
    cublasOperation_t.CUBLAS_OP_T 2 3 4 1 0 1 0 1 0 0 4 1 4 2 3
    cublasStatus_t.ExecutionFailed cublasStatus_t.InvalidValue cublasStatus_t.NotSupported
    rfl rfl rfl
  ⟨h.1.1, h.2.1.1, h.2.2.1⟩

/-- C10: the remapping `(opA, opB, m, n, k, alpha, A, lda, B, ldb, beta, C, ldc) ->
(opB, opA, n, m, k, alpha, B, ldb, A, lda, beta, C, ldc)` is the one `gemm_gpu`
performs (each specialisation is its entry point after `remap`), it is an
involution, hence a bijection on argument tuples, and it is injective: two
distinct requests are never forwarded as the same call. -/
theorem remap_involution {H P T : Type} :
    (∀ (S W : Type) (lib : Cublas H P T T T S W) (g : GemmArgs H P T),
        gemm_gpu_float lib g.handle g.transa g.transb g.m g.n g.k g.alpha g.A g.lda
            g.B g.ldb g.beta g.C g.ldc = lib.cublasSgemm (remap g)
        ∧ gemm_gpu_double lib g.handle g.transa g.transb g.m g.n g.k g.alpha g.A g.lda
            g.B g.ldb g.beta g.C g.ldc = lib.cublasDgemm (remap g)
        ∧ gemm_gpu_half lib g.handle g.transa g.transb g.m g.n g.k g.alpha g.A g.lda
            g.B g.ldb g.beta g.C g.ldc = lib.cublasHgemm (remap g))
    ∧ (∀ g : GemmArgs H P T, remap (remap g) = g)
    ∧ Function.Involutive (remap : GemmArgs H P T → GemmArgs H P T)
    ∧ Function.Bijective (remap : GemmArgs H P T → GemmArgs H P T)
    ∧ Function.Injective (remap : GemmArgs H P T → GemmArgs H P T) := by
  have hinv : Function.Involutive (remap : GemmArgs H P T → GemmArgs H P T) :=
    fun g => rfl
  exact ⟨fun _ _ _ _ => ⟨rfl, rfl, rfl⟩, fun g => rfl, hinv, hinv.bijective, hinv.injective⟩

/-! ## Layout identity -/

/-- Offsets of a strided view are unique: with `j, j2 < ld`, equal offsets
`i * ld + j = i2 * ld + j2` force `i = i2` and `j = j2`. -/
theorem strided_offset_inj {ld i j i2 j2 : Nat} (hj : j < ld) (hj2 : j2 < ld)
    (h : i * ld + j = i2 * ld + j2) : i = i2 ∧ j = j2 := by
  have hpos : 0 < ld := Nat.lt_of_le_of_lt (Nat.zero_le _) hj
  have hi : i = i2 := by
    have h1 : (i * ld + j) / ld = i := by
      rw [Nat.mul_comm, Nat.mul_add_div hpos, Nat.div_eq_of_lt hj, Nat.add_zero]
    have h2 : (i2 * ld + j2) / ld = i2 := by
      rw [Nat.mul_comm, Nat.mul_add_div hpos, Nat.div_eq_of_lt hj2, Nat.add_zero]
    rw [← h1, ← h2, h]
  subst hi
  exact ⟨rfl, Nat.add_left_cancel h⟩

/-- C8: for a buffer read with leading dimension `ld >= n`, element `(i, j)` of
the row-major `m × n` view and element `(j, i)` of the column-major `n × m` view
are both at offset `i * ld + j`, so the two views hold the same values, the
column-major one being the transpose of the row-major one; and inside the view
distinct positions have distinct offsets. -/
theorem rowMajor_eq_colMajor_transposed {T : Type} (buf : Nat → T) (m n ld i j : Nat)
    (hld : n ≤ ld) (hi : i < m) (hj : j < n) :
    rowMajorIdx ld i j = i * ld + j
    ∧ colMajorIdx ld j i = i * ld + j
    ∧ colMajorView buf ld j i = rowMajorView buf ld i j
    ∧ (∀ i2 j2, i2 < m → j2 < n →
        (rowMajorIdx ld i2 j2 = rowMajorIdx ld i j ↔ i2 = i ∧ j2 = j)) := by
  have hc : colMajorIdx ld j i = rowMajorIdx ld i j := by
    unfold colMajorIdx rowMajorIdx; omega
  refine ⟨rfl, hc, ?_, ?_⟩
  · unfold colMajorView rowMajorView; rw [hc]
  · intro i2 j2 _ hj2
    constructor
    · intro h
      exact strided_offset_inj (Nat.lt_of_lt_of_le hj2 hld) (Nat.lt_of_lt_of_le hj hld) h
    · rintro ⟨rfl, rfl⟩; rfl

/-- Witness of C8: the `2 × 3` view with leading dimension 4 of the buffer
`off ↦ 10 * off`, at position `(1, 2)`. -/
theorem rowMajor_eq_colMajor_transposed_witness :
    colMajorIdx 4 2 1 = 1 * 4 + 2
    ∧ colMajorView (fun off => 10 * off) 4 2 1 = rowMajorView (fun off => 10 * off) 4 1 2 :=
  have h := rowMajor_eq_colMajor_transposed (fun off => 10 * off) 2 3 4 1 2
    (by decide) (by decide) (by decide)
  ⟨h.2.1, h.2.2.1⟩

/-! ## The reference GEMM: values and frame -/

/-- The inner loop only loads: memory is unchanged. -/
theorem gemmDot_mem {H P T : Type} [Zero T] [Add T] [Mul T] (g : GemmArgs H P T)
    (i j l : Nat) (d : Device P T) : (gemmDot g i j l d).2.mem = d.mem := by
  induction l with
  | zero => rfl
  | succ l ih => simpa [gemmDot, Device.load] using ih

/-- The inner loop returns the sum of products over the contraction index. -/
theorem gemmDot_val {H P T : Type} [CommSemiring T] (g : GemmArgs H P T)
    (i j l : Nat) (d : Device P T) :
    (gemmDot g i j l d).1
      = colMajorDot g.transa g.transb (d.mem g.A) g.lda (d.mem g.B) g.ldb i j l := by
  induction l with
  | zero => simp [gemmDot, colMajorDot]
  | succ l ih =>
    simp only [gemmDot, Device.load, colMajorDot, Finset.sum_range_succ]
    rw [ih, gemmDot_mem]
    rfl

/-- Memory after one output element. -/
theorem gemmCell_mem {H P T : Type} [CommSemiring T] [DecidableEq P]
    (g : GemmArgs H P T) (i j : Nat) (d : Device P T) (q : P) (o : Nat) :
    (gemmCell g i j d).mem q o
      = if q = g.C ∧ o = colMajorIdx g.ldc i j then
          g.alpha * colMajorDot g.transa g.transb (d.mem g.A) g.lda (d.mem g.B) g.ldb i j g.k
            + g.beta * d.mem g.C (colMajorIdx g.ldc i j)
        else d.mem q o := by
  simp only [gemmCell, Device.store, Device.load, gemmDot_val, gemmDot_mem]

/-- A column pass leaves every buffer other than `C` alone. -/
theorem gemmRows_other {H P T : Type} [CommSemiring T] [DecidableEq P]
    (g : GemmArgs H P T) (j i : Nat) (d : Device P T) (q : P) (hq : q ≠ g.C) :
    (gemmRows g j i d).mem q = d.mem q := by
  induction i with
  | zero => rfl
  | succ i ih =>
    funext o
    rw [gemmRows, gemmCell_mem, if_neg (fun h => hq h.1), ih]

/-- A column pass changes `C` only at the offsets of the elements it computes. -/
theorem gemmRows_frame {H P T : Type} [CommSemiring T] [DecidableEq P]
    (g : GemmArgs H P T) (j i : Nat) (d : Device P T) (o : Nat)
    (ho : ∀ i2, i2 < i → o ≠ colMajorIdx g.ldc i2 j) :
    (gemmRows g j i d).mem g.C o = d.mem g.C o := by
  induction i with
  | zero => rfl
  | succ i ih =>
    rw [gemmRows, gemmCell_mem, if_neg (fun h => ho i (Nat.lt_succ_self i) h.2)]
    exact ih (fun i2 h2 => ho i2 (Nat.lt_succ_of_lt h2))

/-- Values a column pass leaves in `C`, in terms of the memory before the pass. -/
theorem gemmRows_val {H P T : Type} [CommSemiring T] [DecidableEq P]
    (g : GemmArgs H P T) (hA : g.C ≠ g.A) (hB : g.C ≠ g.B) (j i : Nat) (d : Device P T)
    (i2 : Nat) (h2 : i2 < i) :
    (gemmRows g j i d).mem g.C (colMajorIdx g.ldc i2 j)
      = g.alpha * colMajorDot g.transa g.transb (d.mem g.A) g.lda (d.mem g.B) g.ldb i2 j g.k
        + g.beta * d.mem g.C (colMajorIdx g.ldc i2 j) := by
  induction i with
  | zero => exact absurd h2 (Nat.not_lt_zero _)
  | succ i ih =>
    rw [gemmRows, gemmCell_mem]
    by_cases hi : i2 = i
    · subst hi
      rw [if_pos ⟨rfl, rfl⟩, gemmRows_other g j i2 d g.A (Ne.symm hA),
        gemmRows_other g j i2 d g.B (Ne.symm hB)]
      rw [gemmRows_frame g j i2 d _ (fun i3 h3 h => by
        unfold colMajorIdx at h; omega)]
    · have hlt : i2 < i := by omega
      rw [if_neg (fun h => hi (by have := h.2; unfold colMajorIdx at this; omega))]
      exact ih hlt

/-- The reference GEMM leaves every buffer other than `C` alone. -/
theorem gemmCols_other {H P T : Type} [CommSemiring T] [DecidableEq P]
    (g : GemmArgs H P T) (j : Nat) (d : Device P T) (q : P) (hq : q ≠ g.C) :
    (gemmCols g j d).mem q = d.mem q := by
  induction j with
  | zero => rfl
  | succ j ih => rw [gemmCols, gemmRows_other g j g.m _ q hq, ih]

/-- The reference GEMM changes `C` only at the offsets of the elements of the
`m × j` block it computes. -/
theorem gemmCols_frame {H P T : Type} [CommSemiring T] [DecidableEq P]
    (g : GemmArgs H P T) (j : Nat) (d : Device P T) (o : Nat)
    (ho : ∀ i2 j2, i2 < g.m → j2 < j → o ≠ colMajorIdx g.ldc i2 j2) :
    (gemmCols g j d).mem g.C o = d.mem g.C o := by
  induction j with
  | zero => rfl
  | succ j ih =>
    rw [gemmCols, gemmRows_frame g j g.m _ o (fun i2 h2 => ho i2 j h2 (Nat.lt_succ_self j))]
    exact ih (fun i2 j2 h2 hj2 => ho i2 j2 h2 (Nat.lt_succ_of_lt hj2))

/-- Values the reference GEMM leaves in the `m × j` block of `C`, when the
leading dimension of `C` is at least its column height `m`. -/
theorem gemmCols_val {H P T : Type} [CommSemiring T] [DecidableEq P]
    (g : GemmArgs H P T) (hA : g.C ≠ g.A) (hB : g.C ≠ g.B) (hld : g.m ≤ g.ldc)
    (j : Nat) (d : Device P T) (i2 j2 : Nat) (hi2 : i2 < g.m) (hj2 : j2 < j) :
    (gemmCols g j d).mem g.C (colMajorIdx g.ldc i2 j2)
      = g.alpha * colMajorDot g.transa g.transb (d.mem g.A) g.lda (d.mem g.B) g.ldb i2 j2 g.k
        + g.beta * d.mem g.C (colMajorIdx g.ldc i2 j2) := by
  induction j with
  | zero => exact absurd hj2 (Nat.not_lt_zero _)
  | succ j ih =>
    rw [gemmCols]
    by_cases hj : j2 = j
    · subst hj
      rw [gemmRows_val g hA hB j2 g.m _ i2 hi2, gemmCols_other g j2 d g.A (Ne.symm hA),
        gemmCols_other g j2 d g.B (Ne.symm hB)]
      rw [gemmCols_frame g j2 d _ (fun i3 j3 h3 hj3 h => by
        have hlt : i3 < g.ldc := Nat.lt_of_lt_of_le h3 hld
        have hlt2 : i2 < g.ldc := Nat.lt_of_lt_of_le hi2 hld
        have hc : j2 * g.ldc + i2 = j3 * g.ldc + i3 := by
          unfold colMajorIdx at h; omega
        have := (strided_offset_inj hlt2 hlt hc).1
        omega)]
    · have hlt : j2 < j := by omega
      rw [gemmRows_frame g j g.m _ _ (fun i3 h3 h => by
        have hlt3 : i3 < g.ldc := Nat.lt_of_lt_of_le h3 hld
        have hlt2 : i2 < g.ldc := Nat.lt_of_lt_of_le hi2 hld
        have hc : j2 * g.ldc + i2 = j * g.ldc + i3 := by
          unfold colMajorIdx at h; omega
        exact hj (strided_offset_inj hlt2 hlt3 hc).1)]
      exact ih hlt

/-- The three specialisations, run against the reference library, are the
reference GEMM at the remapped tuple. -/
theorem gemm_gpu_ref_eq {H P T : Type} [CommSemiring T] [DecidableEq P]
    (run : H → cublasOperation_t → cublasOperation_t → Nat → Nat → Nat → T → P → Nat →
      P → Nat → T → P → Nat → Device P T → cublasStatus_t × Device P T)
    (hrun : run = gemm_gpu_float (refCublas H P T) ∨ run = gemm_gpu_double (refCublas H P T)
      ∨ run = gemm_gpu_half (refCublas H P T))
    (handle : H) (opA opB : cublasOperation_t) (m n k : Nat) (alpha beta : T)
    (A B C : P) (lda ldb ldc : Nat) (d : Device P T) :
    run handle opA opB m n k alpha A lda B ldb beta C ldc d
      = (cublasStatus_t.Success,
          gemmCols (⟨handle, opB, opA, n, m, k, alpha, B, ldb, A, lda, beta, C, ldc⟩ :
            GemmArgs H P T) m d) := by
  rcases hrun with h | h | h <;> subst h <;> rfl

/-- The column-major sum of the swapped operands is the row-major sum of the
original ones. -/
theorem colMajorDot_swap {T : Type} [CommSemiring T] (opA opB : cublasOperation_t)
    (a : Nat → T) (lda : Nat) (b : Nat → T) (ldb : Nat) (i j k : Nat) :
    colMajorDot opB opA b ldb a lda j i k
      = ∑ l ∈ Finset.range k,
          a (if opA = cublasOperation_t.CUBLAS_OP_N then i * lda + l else l * lda + i)
            * b (if opB = cublasOperation_t.CUBLAS_OP_N then l * ldb + j else j * ldb + l) := by
  unfold colMajorDot
  refine Finset.sum_congr rfl (fun l _ => ?_)
  rw [mul_comm]
  have ha : opIdx opA lda l i
      = if opA = cublasOperation_t.CUBLAS_OP_N then i * lda + l else l * lda + i := by
    cases opA <;> simp [opIdx, colMajorIdx, Nat.add_comm]
  have hb : opIdx opB ldb j l
      = if opB = cublasOperation_t.CUBLAS_OP_N then l * ldb + j else j * ldb + l := by
    cases opB <;> simp [opIdx, colMajorIdx, Nat.add_comm]
  rw [ha, hb]

/-- C1: with the kernel the column-major reference GEMM over a commutative
semiring, for all `m, n, k`, all flags, all `alpha`, `beta` and all buffers
`A`, `B`, `C` (`C` a buffer other than `A` and `B`) with `lda >= (opA == None ? k : m)`,
`ldb >= (opB == None ? n : k)` and `ldc >= n`, each specialisation of `gemm_gpu`
leaves `C[i*ldc + j] = alpha * sum over l < k of op(A)[i][l] * op(B)[l][j]
+ beta * C_old[i*ldc + j]` for `i < m`, `j < n`, where `op(A)[i][l]` is
`A[i*lda + l]` without transposition and `A[l*lda + i]` with it, and `op(B)[l][j]`
is `B[l*ldb + j]` without and `B[j*ldb + l]` with it. -/
theorem gemm_gpu_row_major_result {H P T : Type} [CommSemiring T] [DecidableEq P]
    (run : H → cublasOperation_t → cublasOperation_t → Nat → Nat → Nat → T → P → Nat →
      P → Nat → T → P → Nat → Device P T → cublasStatus_t × Device P T)
    (hrun : run = gemm_gpu_float (refCublas H P T) ∨ run = gemm_gpu_double (refCublas H P T)
      ∨ run = gemm_gpu_half (refCublas H P T))
    (handle : H) (opA opB : cublasOperation_t) (m n k : Nat) (alpha beta : T)
    (A B C : P) (lda ldb ldc : Nat) (d : Device P T)
    (hCA : C ≠ A) (hCB : C ≠ B)
    (_hlda : (if opA = cublasOperation_t.CUBLAS_OP_N then k else m) ≤ lda)
    (_hldb : (if opB = cublasOperation_t.CUBLAS_OP_N then n else k) ≤ ldb)
    (hldc : n ≤ ldc) (i j : Nat) (hi : i < m) (hj : j < n) :
    (run handle opA opB m n k alpha A lda B ldb beta C ldc d).2.mem C (i * ldc + j)
      = alpha * (∑ l ∈ Finset.range k,
          d.mem A (if opA = cublasOperation_t.CUBLAS_OP_N then i * lda + l else l * lda + i)
            * d.mem B (if opB = cublasOperation_t.CUBLAS_OP_N then l * ldb + j
                else j * ldb + l))
        + beta * d.mem C (i * ldc + j) := by
  rw [gemm_gpu_ref_eq run hrun]
  have hidx : i * ldc + j = colMajorIdx ldc j i := by unfold colMajorIdx; omega
  have h := gemmCols_val
    (⟨handle, opB, opA, n, m, k, alpha, B, ldb, A, lda, beta, C, ldc⟩ : GemmArgs H P T)
    hCB hCA hldc m d j i hj hi
  simp only [] at h
  rw [hidx, h, colMajorDot_swap]

/-- Witness of C1: the `2 × 3` scenario at `i = 1`, `j = 2`, `A` transposed in
place of plain (`opA = Transpose`, `lda = 2`), run in `float`. -/
theorem gemm_gpu_row_major_result_witness :
    (gemm_gpu_float (refCublas Unit Nat Int) () cublasOperation_t.CUBLAS_OP_T
        cublasOperation_t.CUBLAS_OP_N 2 3 2 1 0 2 1 3 0 2 3 scenarioDev).2.mem 2 (1 * 3 + 2)
      = 1 * (∑ l ∈ Finset.range 2,
          scenarioMem 0 (if cublasOperation_t.CUBLAS_OP_T = cublasOperation_t.CUBLAS_OP_N
              then 1 * 2 + l else l * 2 + 1)
            * scenarioMem 1 (if cublasOperation_t.CUBLAS_OP_N = cublasOperation_t.CUBLAS_OP_N
              then l * 3 + 2 else 2 * 3 + l))
        + 0 * scenarioMem 2 (1 * 3 + 2) :=
  gemm_gpu_row_major_result _ (Or.inl rfl) () cublasOperation_t.CUBLAS_OP_T
    cublasOperation_t.CUBLAS_OP_N 2 3 2 1 0 0 1 2 2 3 3 scenarioDev
    (by decide) (by decide) (by decide) (by decide) (by decide) 1 2 (by decide) (by decide)

/-- C4: with memory as explicit buffers and the kernel the column-major
reference GEMM, for `ldc >= n` and `C` a buffer other than `A` and `B`, each
specialisation of `gemm_gpu` leaves `A`, `B` and every buffer other than `C`
unchanged and changes `C` only at offsets `i*ldc + j` with `i < m`, `j < n`: an
offset not of that form keeps its value, in particular the padding elements
`C[i*ldc + j]` with `n <= j < ldc` and every element at offset `>= m*ldc`. -/
theorem gemm_gpu_frame {H P T : Type} [CommSemiring T] [DecidableEq P]
    (run : H → cublasOperation_t → cublasOperation_t → Nat → Nat → Nat → T → P → Nat →
      P → Nat → T → P → Nat → Device P T → cublasStatus_t × Device P T)
    (hrun : run = gemm_gpu_float (refCublas H P T) ∨ run = gemm_gpu_double (refCublas H P T)
      ∨ run = gemm_gpu_half (refCublas H P T))
    (handle : H) (opA opB : cublasOperation_t) (m n k : Nat) (alpha beta : T)
    (A B C : P) (lda ldb ldc : Nat) (d : Device P T)
    (hCA : C ≠ A) (hCB : C ≠ B) (hldc : n ≤ ldc) :
    (run handle opA opB m n k alpha A lda B ldb beta C ldc d).2.mem A = d.mem A
    ∧ (run handle opA opB m n k alpha A lda B ldb beta C ldc d).2.mem B = d.mem B
    ∧ (∀ q, q ≠ C →
        (run handle opA opB m n k alpha A lda B ldb beta C ldc d).2.mem q = d.mem q)
    ∧ (∀ off, (∀ i j, i < m → j < n → off ≠ i * ldc + j) →
        (run handle opA opB m n k alpha A lda B ldb beta C ldc d).2.mem C off = d.mem C off)
    ∧ (∀ i j, n ≤ j → j < ldc →
        (run handle opA opB m n k alpha A lda B ldb beta C ldc d).2.mem C (i * ldc + j)
          = d.mem C (i * ldc + j))
    ∧ (∀ off, m * ldc ≤ off →
        (run handle opA opB m n k alpha A lda B ldb beta C ldc d).2.mem C off
          = d.mem C off) := by
  rw [gemm_gpu_ref_eq run hrun]
  have hother : ∀ q, q ≠ C →
      (gemmCols (⟨handle, opB, opA, n, m, k, alpha, B, ldb, A, lda, beta, C, ldc⟩ :
        GemmArgs H P T) m d).mem q = d.mem q :=
    fun q hq => gemmCols_other _ m d q hq
  have hframe : ∀ off, (∀ i j, i < m → j < n → off ≠ i * ldc + j) →
      (gemmCols (⟨handle, opB, opA, n, m, k, alpha, B, ldb, A, lda, beta, C, ldc⟩ :
        GemmArgs H P T) m d).mem C off = d.mem C off := by
    intro off hoff
    refine gemmCols_frame
      (⟨handle, opB, opA, n, m, k, alpha, B, ldb, A, lda, beta, C, ldc⟩ : GemmArgs H P T)
      m d off (fun i2 j2 h2 hj2 h => hoff j2 i2 hj2 h2 ?_)
    rw [h]; simp only [colMajorIdx]; omega
  refine ⟨hother A (Ne.symm hCA), hother B (Ne.symm hCB), hother, hframe, ?_, ?_⟩
  · intro i j hnj hj
    refine hframe _ (fun i2 j2 _ hj2 h => ?_)
    have := (strided_offset_inj hj (Nat.lt_of_lt_of_le hj2 hldc) h).2
    omega
  · intro off hoff
    refine hframe _ (fun i2 j2 hi2 hj2 h => ?_)
    have h1 : (i2 + 1) * ldc ≤ m * ldc := Nat.mul_le_mul_right ldc hi2
    rw [Nat.add_mul] at h1
    omega

/-- Witness of C4: the `2 × 3` scenario run in `double` with `ldc = 4`; the
padding element `C[1*4 + 3]` keeps its value. -/
theorem gemm_gpu_frame_witness :
    (gemm_gpu_double (refCublas Unit Nat Int) () cublasOperation_t.CUBLAS_OP_N
        cublasOperation_t.CUBLAS_OP_N 2 3 2 1 0 2 1 3 1 2 4 scenarioDev).2.mem 2 (1 * 4 + 3)
      = scenarioDev.mem 2 (1 * 4 + 3) :=
  (gemm_gpu_frame _ (Or.inr (Or.inl rfl)) () cublasOperation_t.CUBLAS_OP_N
    cublasOperation_t.CUBLAS_OP_N 2 3 2 1 1 0 1 2 2 3 4 scenarioDev
    (by decide) (by decide) (by decide)).2.2.2.2.1 1 3 (by decide) (by decide)

/-- C5: for `m = 2`, `n = 3`, `k = 2`, no transposition, `A = [1,2,3,4]` with
`lda = 2`, `B = [5,6,7,8,9,10]` with `ldb = 3`, `alpha = 1`, `beta = 0` and `C`
six zeros with `ldc = 3`, `gemm_gpu` over the column-major reference GEMM leaves
`C = [21,24,27,47,54,61]`, reports success, and leaves `A` and `B` as they were. -/
theorem gemm_gpu_scenario :
    (List.range 6).map
        ((gemm_gpu_float (refCublas Unit Nat Int) () cublasOperation_t.CUBLAS_OP_N
          cublasOperation_t.CUBLAS_OP_N 2 3 2 1 0 2 1 3 0 2 3 scenarioDev).2.mem 2)
      = [21, 24, 27, 47, 54, 61]
    ∧ (List.range 6).map (scenarioDev.mem 2) = [0, 0, 0, 0, 0, 0]
    ∧ (gemm_gpu_float (refCublas Unit Nat Int) () cublasOperation_t.CUBLAS_OP_N
          cublasOperation_t.CUBLAS_OP_N 2 3 2 1 0 2 1 3 0 2 3 scenarioDev).1
      = cublasStatus_t.Success
    ∧ (List.range 4).map
        ((gemm_gpu_float (refCublas Unit Nat Int) () cublasOperation_t.CUBLAS_OP_N
          cublasOperation_t.CUBLAS_OP_N 2 3 2 1 0 2 1 3 0 2 3 scenarioDev).2.mem 0)
      = [1, 2, 3, 4]
    ∧ (List.range 6).map
        ((gemm_gpu_float (refCublas Unit Nat Int) () cublasOperation_t.CUBLAS_OP_N
          cublasOperation_t.CUBLAS_OP_N 2 3 2 1 0 2 1 3 0 2 3 scenarioDev).2.mem 1)
      = [5, 6, 7, 8, 9, 10] := by
  decide

/-! ## The reference GEMM: accesses -/

/-- Accesses of the inner loop: the loads of the two factors for each `l`. -/
theorem gemmDot_log {H P T : Type} [Zero T] [Add T] [Mul T] (g : GemmArgs H P T)
    (i j l : Nat) (d : Device P T) (a : Access P) :
    a ∈ (gemmDot g i j l d).2.log
      ↔ a ∈ d.log ∨ ∃ l2, l2 < l ∧ (a = ⟨false, g.A, opIdx g.transa g.lda i l2⟩
          ∨ a = ⟨false, g.B, opIdx g.transb g.ldb l2 j⟩) := by
  induction l with
  | zero => simp [gemmDot]
  | succ l ih =>
    simp only [gemmDot, Device.load, List.mem_cons, ih]
    constructor
    · rintro (h | h | h | ⟨l2, hl2, h⟩)
      · exact Or.inr ⟨l, Nat.lt_succ_self l, Or.inr h⟩
      · exact Or.inr ⟨l, Nat.lt_succ_self l, Or.inl h⟩
      · exact Or.inl h
      · exact Or.inr ⟨l2, Nat.lt_succ_of_lt hl2, h⟩
    · rintro (h | ⟨l2, hl2, h⟩)
      · exact Or.inr (Or.inr (Or.inl h))
      · rcases Nat.lt_succ_iff_lt_or_eq.mp hl2 with hlt | rfl
        · exact Or.inr (Or.inr (Or.inr ⟨l2, hlt, h⟩))
        · rcases h with h | h
          · exact Or.inr (Or.inl h)
          · exact Or.inl h

/-- Accesses of one output element. -/
theorem gemmCell_log {H P T : Type} [Zero T] [Add T] [Mul T] [DecidableEq P]
    (g : GemmArgs H P T) (i j : Nat) (d : Device P T) (a : Access P) :
    a ∈ (gemmCell g i j d).log ↔ a ∈ d.log ∨ cellAccess g i j a := by
  simp only [gemmCell, Device.store, Device.load, List.mem_cons, gemmDot_log, cellAccess]
  constructor
  · rintro (h | h | h | h)
    · exact Or.inr (Or.inr (Or.inr h))
    · exact Or.inr (Or.inr (Or.inl h))
    · exact Or.inl h
    · exact Or.inr (Or.inl h)
  · rintro (h | h | h | h)
    · exact Or.inr (Or.inr (Or.inl h))
    · exact Or.inr (Or.inr (Or.inr h))
    · exact Or.inr (Or.inl h)
    · exact Or.inl h

/-- Accesses of a column pass. -/
theorem gemmRows_log {H P T : Type} [Zero T] [Add T] [Mul T] [DecidableEq P]
    (g : GemmArgs H P T) (j i : Nat) (d : Device P T) (a : Access P) :
    a ∈ (gemmRows g j i d).log ↔ a ∈ d.log ∨ ∃ i2, i2 < i ∧ cellAccess g i2 j a := by
  induction i with
  | zero => simp [gemmRows]
  | succ i ih =>
    rw [gemmRows, gemmCell_log, ih]
    constructor
    · rintro ((h | ⟨i2, hi2, h⟩) | h)
      · exact Or.inl h
      · exact Or.inr ⟨i2, Nat.lt_succ_of_lt hi2, h⟩
      · exact Or.inr ⟨i, Nat.lt_succ_self i, h⟩
    · rintro (h | ⟨i2, hi2, h⟩)
      · exact Or.inl (Or.inl h)
      · rcases Nat.lt_succ_iff_lt_or_eq.mp hi2 with hlt | rfl
        · exact Or.inl (Or.inr ⟨i2, hlt, h⟩)
        · exact Or.inr h

/-- Accesses of the reference GEMM over the first `j` output columns. -/
theorem gemmCols_log {H P T : Type} [Zero T] [Add T] [Mul T] [DecidableEq P]
    (g : GemmArgs H P T) (j : Nat) (d : Device P T) (a : Access P) :
    a ∈ (gemmCols g j d).log
      ↔ a ∈ d.log ∨ ∃ i2 j2, i2 < g.m ∧ j2 < j ∧ cellAccess g i2 j2 a := by
  induction j with
  | zero => simp [gemmCols]
  | succ j ih =>
    rw [gemmCols, gemmRows_log, ih]
    constructor
    · rintro ((h | ⟨i2, j2, hi2, hj2, h⟩) | ⟨i2, hi2, h⟩)
      · exact Or.inl h
      · exact Or.inr ⟨i2, j2, hi2, Nat.lt_succ_of_lt hj2, h⟩
      · exact Or.inr ⟨i2, j, hi2, Nat.lt_succ_self j, h⟩
    · rintro (h | ⟨i2, j2, hi2, hj2, h⟩)
      · exact Or.inl (Or.inl h)
      · rcases Nat.lt_succ_iff_lt_or_eq.mp hj2 with hlt | rfl
        · exact Or.inl (Or.inr ⟨i2, j2, hi2, hlt, h⟩)
        · exact Or.inr ⟨i2, hi2, h⟩

/-- C9: for all `m, n, k` and flags, if `lda >= (opA == None ? k : m)`,
`ldb >= (opB == None ? n : k)` and `ldc >= n`, every access the column-major
computation issued by `gemm_gpu` adds to the log is a load from `A`, a load
from `B`, or a load or store on `C`, at an offset `r*ld + c` of the operand's
row-major view with `c` below the view's column count, `c < ld`, and `r` below
its row count (`A`: `m` rows of `k` without transposition, `k` rows of `m` with
it; `B`: `k` rows of `n`, or `n` rows of `k`; `C`: `m` rows of `n`); stores go
to `C` only, and every element `(i, j)` of the `m × n` result is stored. -/
theorem gemm_gpu_accesses_in_bounds {H P T : Type} [CommSemiring T] [DecidableEq P]
    (run : H → cublasOperation_t → cublasOperation_t → Nat → Nat → Nat → T → P → Nat →
      P → Nat → T → P → Nat → Device P T → cublasStatus_t × Device P T)
    (hrun : run = gemm_gpu_float (refCublas H P T) ∨ run = gemm_gpu_double (refCublas H P T)
      ∨ run = gemm_gpu_half (refCublas H P T))
    (handle : H) (opA opB : cublasOperation_t) (m n k : Nat) (alpha beta : T)
    (A B C : P) (lda ldb ldc : Nat) (d : Device P T)
    (hlda : (if opA = cublasOperation_t.CUBLAS_OP_N then k else m) ≤ lda)
    (hldb : (if opB = cublasOperation_t.CUBLAS_OP_N then n else k) ≤ ldb)
    (hldc : n ≤ ldc) :
    (∀ a, a ∈ (run handle opA opB m n k alpha A lda B ldb beta C ldc d).2.log →
      a ∈ d.log
      ∨ (a.isStore = false ∧ a.ptr = A ∧ ∃ r c,
          r < (if opA = cublasOperation_t.CUBLAS_OP_N then m else k)
          ∧ c < (if opA = cublasOperation_t.CUBLAS_OP_N then k else m)
          ∧ c < lda ∧ a.off = r * lda + c)
      ∨ (a.isStore = false ∧ a.ptr = B ∧ ∃ r c,
          r < (if opB = cublasOperation_t.CUBLAS_OP_N then k else n)
          ∧ c < (if opB = cublasOperation_t.CUBLAS_OP_N then n else k)
          ∧ c < ldb ∧ a.off = r * ldb + c)
      ∨ (a.ptr = C ∧ ∃ r c, r < m ∧ c < n ∧ c < ldc ∧ a.off = r * ldc + c))
    ∧ (∀ i j, i < m → j < n →
        (⟨true, C, i * ldc + j⟩ : Access P)
          ∈ (run handle opA opB m n k alpha A lda B ldb beta C ldc d).2.log) := by
  rw [gemm_gpu_ref_eq run hrun]
  constructor
  · intro a ha
    rcases (gemmCols_log _ m d a).mp ha with h | ⟨i2, j2, hi2, hj2, hc⟩
    · exact Or.inl h
    · simp only [] at hi2
      rcases hc with ⟨l, hl, h | h⟩ | h | h
      · -- first kernel operand: the caller's `B`
        simp only [] at hl h
        refine Or.inr (Or.inr (Or.inl ⟨by rw [h], by rw [h], ?_⟩))
        cases opB
        · refine ⟨l, i2, by simpa using hl, by simpa using hi2, ?_, ?_⟩
          · have : n ≤ ldb := by simpa using hldb
            omega
          · rw [h]; simp only [opIdx, colMajorIdx]; omega
        · refine ⟨i2, l, by simpa using hi2, by simpa using hl, ?_, ?_⟩
          · have : k ≤ ldb := by simpa using hldb
            omega
          · rw [h]; simp only [opIdx, colMajorIdx]; omega
        · refine ⟨i2, l, by simpa using hi2, by simpa using hl, ?_, ?_⟩
          · have : k ≤ ldb := by simpa using hldb
            omega
          · rw [h]; simp only [opIdx, colMajorIdx]; omega
      · -- second kernel operand: the caller's `A`
        simp only [] at hl h
        refine Or.inr (Or.inl ⟨by rw [h], by rw [h], ?_⟩)
        cases opA
        · refine ⟨j2, l, by simpa using hj2, by simpa using hl, ?_, ?_⟩
          · have : k ≤ lda := by simpa using hlda
            omega
          · rw [h]; simp only [opIdx, colMajorIdx]; omega
        · refine ⟨l, j2, by simpa using hl, by simpa using hj2, ?_, ?_⟩
          · have : m ≤ lda := by simpa using hlda
            omega
          · rw [h]; simp only [opIdx, colMajorIdx]; omega
        · refine ⟨l, j2, by simpa using hl, by simpa using hj2, ?_, ?_⟩
          · have : m ≤ lda := by simpa using hlda
            omega
          · rw [h]; simp only [opIdx, colMajorIdx]; omega
      · refine Or.inr (Or.inr (Or.inr ⟨by rw [h], j2, i2, hj2, hi2, by omega, ?_⟩))
        rw [h]; simp only [colMajorIdx]; omega
      · refine Or.inr (Or.inr (Or.inr ⟨by rw [h], j2, i2, hj2, hi2, by omega, ?_⟩))
        rw [h]; simp only [colMajorIdx]; omega
  · intro i j hi hj
    refine (gemmCols_log _ m d _).mpr (Or.inr ⟨j, i, hj, hi, Or.inr (Or.inr ?_)⟩)
    simp only [colMajorIdx, Nat.add_comm]

/-- Witness of C9: in the `2 × 3` scenario with `B` transposed (`ldb = 2`), run
in `half`, the load of `A[1*2 + 1]` is one of the accesses, and it lies in the
view of `A`. -/
theorem gemm_gpu_accesses_in_bounds_witness :
    (⟨false, 0, 3⟩ : Access Nat)
        ∈ (gemm_gpu_half (refCublas Unit Nat Int) () cublasOperation_t.CUBLAS_OP_N
          cublasOperation_t.CUBLAS_OP_T 2 3 2 1 0 2 1 2 0 2 3 scenarioDev).2.log
    ∧ ∃ r c, r < 2 ∧ c < 2 ∧ (3 : Nat) = r * 2 + c := by
  have h := (gemm_gpu_accesses_in_bounds _ (Or.inr (Or.inr rfl)) ()
    cublasOperation_t.CUBLAS_OP_N cublasOperation_t.CUBLAS_OP_T 2 3 2 (1 : Int) 0 0 1 2 2 2 3
    scenarioDev (by decide) (by decide) (by decide)).1 ⟨false, 0, 3⟩ (by decide)
  refine ⟨by decide, ?_⟩
  rcases h with h | ⟨_, _, r, c, hr, hc, _, ho⟩ | ⟨_, hp, _⟩ | ⟨hp, _⟩
  · exact absurd h (by decide)
  · exact ⟨r, c, by simpa using hr, by simpa using hc, ho⟩
  · exact absurd hp (by decide)
  · exact absurd hp (by decide)

/-! ## Strided copy -/

/-- Copying a row leaves every buffer other than the destination alone. -/
theorem copymRow_other {P T : Type} [DecidableEq P] (A : P) (lda : Nat) (B : P)
    (ldb i j : Nat) (d : Device P T) (q : P) (hq : q ≠ B) :
    (copymRow A lda B ldb i j d).mem q = d.mem q := by
  induction j with
  | zero => rfl
  | succ j ih =>
    funext o
    simp only [copymRow, Device.store, Device.load]
    rw [if_neg (fun h => hq h.1), ih]

/-- Copying a row changes the destination only at the offsets of that row. -/
theorem copymRow_frame {P T : Type} [DecidableEq P] (A : P) (lda : Nat) (B : P)
    (ldb i j : Nat) (d : Device P T) (o : Nat)
    (ho : ∀ j2, j2 < j → o ≠ rowMajorIdx ldb i j2) :
    (copymRow A lda B ldb i j d).mem B o = d.mem B o := by
  induction j with
  | zero => rfl
  | succ j ih =>
    simp only [copymRow, Device.store, Device.load]
    rw [if_neg (fun h => ho j (Nat.lt_succ_self j) h.2)]
    exact ih (fun j2 h2 => ho j2 (Nat.lt_succ_of_lt h2))

/-- Values a row copy leaves in the destination. -/
theorem copymRow_val {P T : Type} [DecidableEq P] (A : P) (lda : Nat) (B : P)
    (ldb i j : Nat) (d : Device P T) (hAB : A ≠ B) (j2 : Nat) (h2 : j2 < j) :
    (copymRow A lda B ldb i j d).mem B (rowMajorIdx ldb i j2)
      = d.mem A (rowMajorIdx lda i j2) := by
  induction j with
  | zero => exact absurd h2 (Nat.not_lt_zero _)
  | succ j ih =>
    simp only [copymRow, Device.store, Device.load]
    by_cases hj : j2 = j
    · subst hj
      rw [if_pos (by simp), copymRow_other A lda B ldb i j2 d A hAB]
    · rw [if_neg (fun h => hj (by have := h.2; unfold rowMajorIdx at this; omega))]
      exact ih (by omega)

/-- The copy leaves every buffer other than the destination alone. -/
theorem copymRows_other {P T : Type} [DecidableEq P] (n : Nat) (A : P) (lda : Nat) (B : P)
    (ldb i : Nat) (d : Device P T) (q : P) (hq : q ≠ B) :
    (copymRows n A lda B ldb i d).mem q = d.mem q := by
  induction i with
  | zero => rfl
  | succ i ih => rw [copymRows, copymRow_other A lda B ldb i n _ q hq, ih]

/-- The copy changes the destination only at the offsets of the block. -/
theorem copymRows_frame {P T : Type} [DecidableEq P] (n : Nat) (A : P) (lda : Nat) (B : P)
    (ldb i : Nat) (d : Device P T) (o : Nat)
    (ho : ∀ i2 j2, i2 < i → j2 < n → o ≠ rowMajorIdx ldb i2 j2) :
    (copymRows n A lda B ldb i d).mem B o = d.mem B o := by
  induction i with
  | zero => rfl
  | succ i ih =>
    rw [copymRows, copymRow_frame A lda B ldb i n _ o
      (fun j2 h2 => ho i j2 (Nat.lt_succ_self i) h2)]
    exact ih (fun i2 j2 h2 hj2 => ho i2 j2 (Nat.lt_succ_of_lt h2) hj2)

/-- Values the copy leaves in the block of the destination, when the destination
rows do not overlap (`n <= ldb`). -/
theorem copymRows_val {P T : Type} [DecidableEq P] (n : Nat) (A : P) (lda : Nat) (B : P)
    (ldb i : Nat) (d : Device P T) (hAB : A ≠ B) (hldb : n ≤ ldb)
    (i2 j2 : Nat) (hi2 : i2 < i) (hj2 : j2 < n) :
    (copymRows n A lda B ldb i d).mem B (rowMajorIdx ldb i2 j2)
      = d.mem A (rowMajorIdx lda i2 j2) := by
  induction i with
  | zero => exact absurd hi2 (Nat.not_lt_zero _)
  | succ i ih =>
    rw [copymRows]
    by_cases hi : i2 = i
    · subst hi
      rw [copymRow_val A lda B ldb i2 n _ hAB j2 hj2, copymRows_other n A lda B ldb i2 d A hAB]
    · rw [copymRow_frame A lda B ldb i n _ _ (fun j3 h3 h => by
        unfold rowMajorIdx at h
        exact hi (strided_offset_inj (Nat.lt_of_lt_of_le hj2 hldb)
          (Nat.lt_of_lt_of_le h3 hldb) h).1)]
      exact ih (by omega)

/-- C6: for all `m, n`, `lda >= n` and `ldb >= n`, with source and destination
two different buffers, `copym_gpu(m, n, A, lda, B, ldb, stream)` leaves
`B[i*ldb + j] = A[i*lda + j]` for `i < m`, `j < n`, each side indexed with its
own leading dimension, and leaves every other element of `B` unchanged, the
padding `B[i*ldb + j]` with `n <= j < ldb` included; the source is unchanged. -/
theorem copym_gpu_copies_block {P T Q : Type} [DecidableEq P] (m n : Nat) (A : P)
    (lda : Nat) (B : P) (ldb : Nat) (stream : Q) (d : Device P T)
    (hAB : A ≠ B) (_hlda : n ≤ lda) (hldb : n ≤ ldb) :
    (∀ i j, i < m → j < n →
        (copym_gpu m n A lda B ldb stream d).mem B (i * ldb + j) = d.mem A (i * lda + j))
    ∧ (∀ off, (∀ i j, i < m → j < n → off ≠ i * ldb + j) →
        (copym_gpu m n A lda B ldb stream d).mem B off = d.mem B off)
    ∧ (∀ i j, n ≤ j → j < ldb →
        (copym_gpu m n A lda B ldb stream d).mem B (i * ldb + j) = d.mem B (i * ldb + j))
    ∧ (copym_gpu m n A lda B ldb stream d).mem A = d.mem A := by
  have hframe : ∀ off, (∀ i j, i < m → j < n → off ≠ i * ldb + j) →
      (copym_gpu m n A lda B ldb stream d).mem B off = d.mem B off :=
    fun off hoff => copymRows_frame n A lda B ldb m d off hoff
  refine ⟨fun i j hi hj => copymRows_val n A lda B ldb m d hAB hldb i j hi hj, hframe, ?_,
    copymRows_other n A lda B ldb m d A hAB⟩
  intro i j hnj hj
  refine hframe _ (fun i2 j2 _ hj2 h => ?_)
  have := (strided_offset_inj hj (Nat.lt_of_lt_of_le hj2 hldb) h).2
  omega

/-- Witness of C6: the `2 × 2` block of a source with `lda = 4` copied into a
destination with `ldb = 2`; element `(1, 1)` of the destination is the source
element at offset `1*4 + 1`. -/
theorem copym_gpu_copies_block_witness :
    (copym_gpu 2 2 0 4 1 2 () copyDev).mem 1 (1 * 2 + 1) = copyDev.mem 0 (1 * 4 + 1) :=
  (copym_gpu_copies_block 2 2 0 4 1 2 () copyDev (by decide) (by decide) (by decide)).1
    1 1 (by decide) (by decide)

/-- C7: for all `m, n`, `lda >= n`, `ldb >= n` (`lda` and `ldb` may differ) and
two different buffers `A`, `B` of any element type, `copym_gpu(m, n, A, lda, B, ldb)`
followed by `copym_gpu(m, n, B, ldb, A, lda)` leaves `A[i*lda + j]` at its
original value for `i < m`, `j < n`; in fact the whole of `A` is as it was. -/
theorem copym_gpu_round_trip {P T Q : Type} [DecidableEq P] (m n : Nat) (A : P)
    (lda : Nat) (B : P) (ldb : Nat) (stream : Q) (d : Device P T)
    (hAB : A ≠ B) (hlda : n ≤ lda) (hldb : n ≤ ldb) :
    (∀ i j, i < m → j < n →
        (copym_gpu m n B ldb A lda stream (copym_gpu m n A lda B ldb stream d)).mem A
            (i * lda + j) = d.mem A (i * lda + j))
    ∧ (copym_gpu m n B ldb A lda stream (copym_gpu m n A lda B ldb stream d)).mem A
        = d.mem A := by
  have hblock : ∀ i j, i < m → j < n →
      (copym_gpu m n B ldb A lda stream (copym_gpu m n A lda B ldb stream d)).mem A
          (i * lda + j) = d.mem A (i * lda + j) := by
    intro i j hi hj
    have h2 := copymRows_val n B ldb A lda m (copym_gpu m n A lda B ldb stream d)
      (Ne.symm hAB) hlda i j hi hj
    have h1 := copymRows_val n A lda B ldb m d hAB hldb i j hi hj
    unfold rowMajorIdx at h1 h2
    unfold copym_gpu
    unfold copym_gpu at h2
    rw [h2, h1]
  refine ⟨hblock, ?_⟩
  funext off
  by_cases hoff : ∃ i j, i < m ∧ j < n ∧ off = i * lda + j
  · obtain ⟨i, j, hi, hj, rfl⟩ := hoff
    exact hblock i j hi hj
  · have h2 := copymRows_frame n B ldb A lda m (copym_gpu m n A lda B ldb stream d) off
      (fun i j hi hj h => hoff ⟨i, j, hi, hj, h⟩)
    have h1 := copymRows_other n A lda B ldb m d A hAB
    unfold copym_gpu
    unfold copym_gpu at h2
    rw [h2, h1]

/-- Witness of C7: the `2 × 2` block with `lda = 4` and `ldb = 2`, copied out and
back; element `(1, 0)` of the source is as before. -/
theorem copym_gpu_round_trip_witness :
    (copym_gpu 2 2 1 2 0 4 () (copym_gpu 2 2 0 4 1 2 () copyDev)).mem 0 (1 * 4 + 0)
      = copyDev.mem 0 (1 * 4 + 0) :=
  (copym_gpu_round_trip 2 2 0 4 1 2 () copyDev (by decide) (by decide) (by decide)).1
    1 0 (by decide) (by decide)

end Rnn2d
